import Mathlib

/-!
Verification of the Wordle-Helper core (src/main.rs) against its
natural-language specification.

Modelling conventions:
* Rust `String` values (both the words of the word list and the contents of
  the constraint text fields) are modelled as `List Char`; `str::chars()` is
  then the identity and `String::contains(char)` is list membership.
* The arrays `[String; 5]` of the `Word` struct are modelled as `List (List Char)`
  (length 5 in every state the program builds; theorems carry the length as a
  hypothesis where it matters).
* Rust indexing `w_chars[idx]` panics when `idx` is out of bounds.  A panic
  aborts the process, so every function on the panicking path is embedded in
  `Except Unit`, with `Except.error ()` denoting the panic.  The embedding
  reproduces the source's left-to-right, short-circuiting evaluation order, so
  an `Except.error` appears exactly when the Rust code would reach the
  out-of-bounds index.
* `Iterator::enumerate` is modelled by threading the running index through the
  recursion (`Nat` argument), starting at 0.
-/

/-- Word (src/main.rs): the constraint state.  `chars` are the five
known-position fields (each at most one character, enforced by the UI's
`char_limit(1)`), `wrong` the globally excluded characters, `wrong_pos` the
five per-position misplaced-character fields. -/
structure Word where
  chars : List (List Char)
  wrong : List Char
  wrong_pos : List (List Char)
deriving DecidableEq

/-- Word::default() from `#[derive(Default)]`: all five `chars` fields empty,
`wrong` empty, all five `wrong_pos` fields empty. -/
def Word.default : Word :=
  ⟨List.replicate 5 [], [], List.replicate 5 []⟩

/-- First check of Word::filter:
`self.chars.iter().enumerate().filter(|(_, ch)| !ch.is_empty())
  .any(|(idx, ch)| w_chars[idx] != ch.chars().next().unwrap())`.
Empty fields are skipped; at a non-empty field the candidate is indexed at
`idx` (panic when out of bounds, modelled by `Except.error ()`) and compared
with the field's first character.  The running index plays `enumerate`. -/
def known_any (w : List Char) : Nat → List (List Char) → Except Unit Bool
  | _, [] => Except.ok false
  | idx, ch :: rest =>
    match ch with
    | [] => known_any w (idx + 1) rest
    | c :: _ =>
      match w.get? idx with
      | some cw => if cw ≠ c then Except.ok true else known_any w (idx + 1) rest
      | none => Except.error ()

/-- Inner loop of the third check of Word::filter:
`chars.chars().any(|ch| w_chars[idx] == ch || !w.contains(ch))`.
The candidate is indexed at `idx` before the disjunction is decided (the Rust
indexing is the left operand), so the panic fires whenever the field is
non-empty and `idx` is out of bounds. -/
def wrong_pos_inner (w : List Char) (idx : Nat) : List Char → Except Unit Bool
  | [] => Except.ok false
  | ch :: rest =>
    match w.get? idx with
    | some cw =>
      if cw = ch ∨ ch ∉ w then Except.ok true else wrong_pos_inner w idx rest
    | none => Except.error ()

/-- Third check of Word::filter:
`self.wrong_pos.iter().enumerate().any(|(idx, chars)| ...)` with the inner
loop `wrong_pos_inner`; short-circuits on the first `true` and propagates a
panic. -/
def wrong_pos_any (w : List Char) : Nat → List (List Char) → Except Unit Bool
  | _, [] => Except.ok false
  | idx, chs :: rest =>
    match wrong_pos_inner w idx chs with
    | Except.ok true => Except.ok true
    | Except.ok false => wrong_pos_any w (idx + 1) rest
    | Except.error e => Except.error e

/-- Word::filter (src/main.rs lines 72–100): runs the three checks in source
order — known positions, excluded characters
(`self.wrong.chars().any(|ch| w.contains(ch))`), misplaced characters — and
returns `some w` when all pass, `none` when one fails, propagating a panic as
`Except.error ()`. -/
def Word.filter (cs : Word) (w : List Char) : Except Unit (Option (List Char)) :=
  match known_any w 0 cs.chars with
  | Except.error e => Except.error e
  | Except.ok true => Except.ok none
  | Except.ok false =>
    if cs.wrong.any (fun ch => decide (ch ∈ w)) then Except.ok none
    else
      match wrong_pos_any w 0 cs.wrong_pos with
      | Except.error e => Except.error e
      | Except.ok true => Except.ok none
      | Except.ok false => Except.ok (some w)

/-- Word.matches: the boolean predicate the spec calls `matches` — the word
survives `Word.filter` (which realises the spec's
`filter = words withFilter matches`). -/
def Word.matches (cs : Word) (w : List Char) : Prop :=
  cs.filter w = Except.ok (some w)

/-- Decidable equality for `Except`, by cases on the two constructors. -/
instance {ε α : Type} [DecidableEq ε] [DecidableEq α] : DecidableEq (Except ε α) :=
  fun a b =>
    match a, b with
    | Except.error e1, Except.error e2 =>
      if h : e1 = e2 then Decidable.isTrue (by rw [h])
      else Decidable.isFalse (fun hh => h (Except.error.inj hh))
    | Except.ok a1, Except.ok a2 =>
      if h : a1 = a2 then Decidable.isTrue (by rw [h])
      else Decidable.isFalse (fun hh => h (Except.ok.inj hh))
    | Except.error _, Except.ok _ => Decidable.isFalse (fun hh => Except.noConfusion hh)
    | Except.ok _, Except.error _ => Decidable.isFalse (fun hh => Except.noConfusion hh)

instance (cs : Word) (w : List Char) : Decidable (cs.matches w) :=
  inferInstanceAs (Decidable (_ = _))

/-- The word-list pass `words.iter().filter_map(|w| word.filter(w)).collect()`
shared by all three field handlers: words are processed in order, surviving
words are kept, and a panic inside `Word.filter` aborts the whole pass. -/
def filterList (cs : Word) : List (List Char) → Except Unit (List (List Char))
  | [] => Except.ok []
  | w :: rest =>
    match cs.filter w with
    | Except.error e => Except.error e
    | Except.ok r =>
      match filterList cs rest with
      | Except.error e => Except.error e
      | Except.ok rs =>
        Except.ok (match r with | some v => v :: rs | none => rs)

/-- Number of distinct characters of a word, as computed by the closure in
sort_possible_by_entropy: collect the characters, `sort_unstable`, `dedup`
(adjacent duplicates, which after sorting removes all duplicates), `len`. -/
def distinctCount (w : List Char) : Nat :=
  ((w.insertionSort (fun a b => a ≤ b)).dedup).length

/-- Comparison key order used by `sort_unstable_by_key`: ascending
`distinctCount`. -/
def entropyLe (a b : List Char) : Prop :=
  distinctCount a ≤ distinctCount b

instance : DecidableRel entropyLe :=
  fun a b => inferInstanceAs (Decidable (distinctCount a ≤ distinctCount b))

instance : IsTotal (List Char) entropyLe :=
  ⟨fun a b => Nat.le_total (distinctCount a) (distinctCount b)⟩

instance : IsTrans (List Char) entropyLe :=
  ⟨fun _ _ _ h1 h2 => Nat.le_trans h1 h2⟩

/-- sort_possible_by_entropy (src/main.rs lines 103–111):
`possible.sort_unstable_by_key(|w| distinct-count)` followed by
`possible.reverse()`.  Rust's `sort_unstable_by_key` guarantees only an
ascending arrangement, not any tie order; on slices of the sizes it actually
dispatches to its insertion-sort path it keeps equal-key elements in their
original relative order, and the embedding fixes that behaviour with a stable
ascending `insertionSort`.  The trailing `reverse` is literal. -/
def sort_possible_by_entropy (possible : List (List Char)) : List (List Char) :=
  (possible.insertionSort entropyLe).reverse

/-- State update of char_field (src/main.rs lines 16–32) when the field
changed: the UI has already stored the new contents `newVal` into
`word.chars[idx]`; the handler then runs
`for w in &mut word.wrong_pos { w.remove_matches(&word.chars[idx].clone()) }`. -/
def remove_matches : List Char → List Char → List Char
  | s, [] => s
  | [], _ :: _ => []
  | c :: rest, p :: pt =>
    if (c :: rest).take (p :: pt).length = p :: pt then
      remove_matches ((c :: rest).drop (p :: pt).length) (p :: pt)
    else
      c :: remove_matches rest (p :: pt)
termination_by s _ => s.length
decreasing_by
  · simp only [List.length_drop, List.length_cons]
    omega
  · simp

/-- The mutation performed by char_field on a change of field `idx`: write the
new contents, then strip that contents from every `wrong_pos` field. -/
def char_field_update (word : Word) (idx : Nat) (newVal : List Char) : Word :=
  let chars := word.chars.set idx newVal
  { word with
    chars := chars
    wrong_pos := word.wrong_pos.map (fun s => remove_matches s (chars.getD idx [])) }

/-- char_field's changed-branch (src/main.rs lines 16–32): mutate the state,
then return the re-filtered word list computed from the mutated state.  (When
the field did not change the handler returns `None` and mutates nothing.) -/
def char_field (word : Word) (words : List (List Char)) (idx : Nat)
    (newVal : List Char) : Word × Except Unit (List (List Char)) :=
  let w' := char_field_update word idx newVal
  (w', filterList w' words)

/-- wrong_pos_field's changed-branch (src/main.rs lines 34–46): store the new
contents of misplaced-field `idx` and re-filter; no cleanup is performed. -/
def wrong_pos_field (word : Word) (words : List (List Char)) (idx : Nat)
    (newVal : List Char) : Word × Except Unit (List (List Char)) :=
  let w' := { word with wrong_pos := word.wrong_pos.set idx newVal }
  (w', filterList w' words)

/-- wrong_field's changed-branch (src/main.rs lines 48–60): store the new
excluded-characters string and re-filter. -/
def wrong_field (word : Word) (words : List (List Char))
    (newVal : List Char) : Word × Except Unit (List (List Char)) :=
  let w' := { word with wrong := newVal }
  (w', filterList w' words)

/-- Session state owned by main's closure: the constraint state `word`, the
loaded word list `words`, and the displayed candidate list `possible`. -/
structure AppState where
  word : Word
  words : List (List Char)
  possible : List (List Char)
deriving DecidableEq

/-- The events main reacts to: a change of one of the eleven constraint
fields, the Reset button, and a successful word-list load. -/
inductive Event where
  | setChar (idx : Nat) (val : List Char)
  | setWrongPos (idx : Nat) (val : List Char)
  | setWrong (val : List Char)
  | reset
  | load (newWords : List (List Char))
deriving DecidableEq

/-- Event.isLoad: discriminator for the word-list-reload event. -/
def Event.isLoad : Event → Bool
  | Event.load _ => true
  | _ => false

/-- One step of main's event loop (src/main.rs lines 126–189).  A change of a
constraint field stores the field, re-filters and re-sorts
(`possible = filtered; sort_possible_by_entropy(&mut possible)`).  Reset
restores `Word::default()` and sorts a copy of the word list.  A load replaces
`words` and sets `possible = words.clone()` — with no filtering and no
sorting.  A panic inside the filter pass aborts the program
(`Except.error`). -/
def step (s : AppState) : Event → Except Unit AppState
  | Event.setChar idx val =>
    match char_field s.word s.words idx val with
    | (_, Except.error e) => Except.error e
    | (w', Except.ok filtered) =>
      Except.ok ⟨w', s.words, sort_possible_by_entropy filtered⟩
  | Event.setWrongPos idx val =>
    match wrong_pos_field s.word s.words idx val with
    | (_, Except.error e) => Except.error e
    | (w', Except.ok filtered) =>
      Except.ok ⟨w', s.words, sort_possible_by_entropy filtered⟩
  | Event.setWrong val =>
    match wrong_field s.word s.words val with
    | (_, Except.error e) => Except.error e
    | (w', Except.ok filtered) =>
      Except.ok ⟨w', s.words, sort_possible_by_entropy filtered⟩
  | Event.reset =>
    Except.ok ⟨Word.default, s.words, sort_possible_by_entropy s.words⟩
  | Event.load nw =>
    Except.ok ⟨s.word, nw, nw⟩

/-! ### Ranking: sort_possible_by_entropy -/

/-- The ranked list is a permutation of its input. -/
lemma sort_entropy_perm (ws : List (List Char)) :
    (sort_possible_by_entropy ws).Perm ws :=
  (List.reverse_perm _).trans (List.perm_insertionSort entropyLe ws)

/-- The ranked list is arranged by descending distinct-character count. -/
lemma sort_entropy_desc (ws : List (List Char)) :
    (sort_possible_by_entropy ws).Pairwise
      (fun a b => distinctCount b ≤ distinctCount a) := by
  have h : (ws.insertionSort entropyLe).Pairwise
      (fun a b => distinctCount a ≤ distinctCount b) :=
    List.sorted_insertionSort entropyLe ws
  exact List.pairwise_reverse.mpr h

/-- C2 (amended): sort_possible_by_entropy permutes its input and arranges it
by distinct-character count descending; the relative order of words with equal
counts is NOT preserved (the code's ascending pass keeps ties in input order
and the final reversal flips them), so only the permutation and the descending
arrangement hold. -/
theorem sort_possible_by_entropy_desc (ws : List (List Char)) :
    (sort_possible_by_entropy ws).Perm ws ∧
    (sort_possible_by_entropy ws).Pairwise
      (fun a b => distinctCount b ≤ distinctCount a) :=
  ⟨sort_entropy_perm ws, sort_entropy_desc ws⟩

/-- C2 (counterexample): the words ab and cd have the same distinct-character
count, so the claimed stable descending sort would return them unchanged; the
code returns them reversed. -/
theorem sort_possible_by_entropy_not_stable :
    distinctCount ['a', 'b'] = distinctCount ['c', 'd'] ∧
    sort_possible_by_entropy [['a', 'b'], ['c', 'd']] ≠ [['a', 'b'], ['c', 'd']] := by
  decide

/-- C9: the output of sort_possible_by_entropy is a permutation of its input —
the same words with the same multiplicities, only reordered. -/
theorem sort_possible_by_entropy_perm_count (ws : List (List Char)) :
    (sort_possible_by_entropy ws).Perm ws ∧
    (↑(sort_possible_by_entropy ws) : Multiset (List Char)) = ↑ws :=
  ⟨sort_entropy_perm ws, Multiset.coe_eq_coe.mpr (sort_entropy_perm ws)⟩

/-- C8 (counterexample): on two words with equal distinct-character counts a
second application of sort_possible_by_entropy flips the pair again, so
ranking an already-ranked list does not reproduce it. -/
theorem sort_possible_by_entropy_not_idempotent :
    distinctCount ['u', 'v'] = distinctCount ['x', 'y'] ∧
    sort_possible_by_entropy (sort_possible_by_entropy [['u', 'v'], ['x', 'y']]) ≠
      sort_possible_by_entropy [['u', 'v'], ['x', 'y']] := by
  decide

/-- C8 (amended): sort_possible_by_entropy is idempotent only in the absence
of ties — on lists whose words have pairwise distinct distinct-character
counts re-ranking reproduces the ranked list; with tied counts each
application reverses the tied group, so idempotence fails. -/
theorem sort_idem_of_pairwise_ne_counts (ws : List (List Char))
    (h : ws.Pairwise fun a b => distinctCount a ≠ distinctCount b) :
    sort_possible_by_entropy (sort_possible_by_entropy ws) =
      sort_possible_by_entropy ws := by
  have hsym : ∀ {x y : List Char},
      distinctCount x ≠ distinctCount y → distinctCount y ≠ distinctCount x :=
    fun hxy he => hxy he.symm
  have p1 := sort_entropy_perm ws
  have p2 := sort_entropy_perm (sort_possible_by_entropy ws)
  have hne1 : (sort_possible_by_entropy ws).Pairwise
      (fun a b => distinctCount a ≠ distinctCount b) :=
    (p1.pairwise_iff hsym).mpr h
  have hne2 : (sort_possible_by_entropy (sort_possible_by_entropy ws)).Pairwise
      (fun a b => distinctCount a ≠ distinctCount b) :=
    (p2.pairwise_iff hsym).mpr hne1
  have hs1 : (sort_possible_by_entropy ws).Pairwise
      (fun a b => distinctCount b < distinctCount a) :=
    ((sort_entropy_desc ws).and hne1).imp
      (fun hab => lt_of_le_of_ne hab.1 (fun he => hab.2 he.symm))
  have hs2 : (sort_possible_by_entropy (sort_possible_by_entropy ws)).Pairwise
      (fun a b => distinctCount b < distinctCount a) :=
    ((sort_entropy_desc (sort_possible_by_entropy ws)).and hne2).imp
      (fun hab => lt_of_le_of_ne hab.1 (fun he => hab.2 he.symm))
  haveI : IsAntisymm (List Char) (fun a b => distinctCount b < distinctCount a) :=
    ⟨fun a b h1 h2 => absurd (Nat.lt_trans h1 h2) (Nat.lt_irrefl _)⟩
  exact List.eq_of_perm_of_sorted p2 hs2 hs1

/-- C8 (witness): a concrete tie-free list on which re-ranking reproduces the
ranked list. -/
theorem sort_idem_of_pairwise_ne_counts_witness :
    ([['a', 'b'], ['c', 'c', 'c']] : List (List Char)).Pairwise
      (fun a b => distinctCount a ≠ distinctCount b) ∧
    sort_possible_by_entropy (sort_possible_by_entropy [['a', 'b'], ['c', 'c', 'c']]) =
      sort_possible_by_entropy [['a', 'b'], ['c', 'c', 'c']] :=
  ⟨by decide, sort_idem_of_pairwise_ne_counts _ (by decide)⟩

/-! ### The matching predicate: check-level lemmas -/

/-- If the known-position pass returned false, every non-empty field it
visited found the candidate's character equal to the field's first
character. -/
lemma known_any_false_sound (w : List Char) :
    ∀ (ps : List (List Char)) (i : Nat), known_any w i ps = Except.ok false →
      ∀ k c t, ps.get? k = some (c :: t) → w.get? (i + k) = some c := by
  intro ps
  induction ps with
  | nil => intro i _ k c t hk; simp at hk
  | cons ch rest ih =>
    intro i h k c t hk
    cases k with
    | zero =>
      have hch : ch = c :: t := by simpa using hk
      subst hch
      simp only [known_any] at h
      cases hcw : w.get? i with
      | none => rw [hcw] at h; cases h
      | some cw =>
        rw [hcw] at h
        by_cases he : cw = c
        · rw [Nat.add_zero, hcw, he]
        · simp [he] at h
    | succ k' =>
      have hk' : rest.get? k' = some (c :: t) := by simpa using hk
      have hrec : known_any w (i + 1) rest = Except.ok false := by
        cases ch with
        | nil => simpa [known_any] using h
        | cons c' t' =>
          simp only [known_any] at h
          cases hcw : w.get? i with
          | none => rw [hcw] at h; cases h
          | some cw =>
            rw [hcw] at h
            by_cases he : cw = c'
            · simpa [he] using h
            · simp [he] at h
      have := ih (i + 1) hrec k' c t hk'
      have harith : i + (k' + 1) = i + 1 + k' := by omega
      rw [harith]
      exact this

/-- Completeness of the known-position pass: if every non-empty field agrees
with the candidate (and in particular the candidate has a character at every
such index), the pass returns false without panicking. -/
lemma known_any_eq_false (w : List Char) :
    ∀ (ps : List (List Char)) (i : Nat),
      (∀ k c t, ps.get? k = some (c :: t) → w.get? (i + k) = some c) →
      known_any w i ps = Except.ok false := by
  intro ps
  induction ps with
  | nil => intro i _; rfl
  | cons ch rest ih =>
    intro i h
    have hshift : ∀ k c t, rest.get? k = some (c :: t) → w.get? (i + 1 + k) = some c := by
      intro k c t hk
      have := h (k + 1) c t (by simpa using hk)
      have harith : i + (k + 1) = i + 1 + k := by omega
      rw [harith] at this
      exact this
    cases ch with
    | nil => simpa [known_any] using ih (i + 1) hshift
    | cons c' t' =>
      have hc' : w.get? i = some c' := by
        have := h 0 c' t' (by simp)
        simpa using this
      rw [List.get?_eq_getElem?] at hc'
      simp [known_any, hc', ih (i + 1) hshift]

/-- The known-position pass cannot panic when every index it may visit is
within the candidate. -/
lemma known_any_ne_error (w : List Char) :
    ∀ (ps : List (List Char)) (i : Nat),
      (∀ k, k < ps.length → i + k < w.length) →
      ∃ b, known_any w i ps = Except.ok b := by
  intro ps
  induction ps with
  | nil => intro i _; exact ⟨false, rfl⟩
  | cons ch rest ih =>
    intro i h
    have hshift : ∀ k, k < rest.length → i + 1 + k < w.length := by
      intro k hk
      have := h (k + 1) (by simpa using Nat.succ_lt_succ hk)
      omega
    cases ch with
    | nil => simpa [known_any] using ih (i + 1) hshift
    | cons c' t' =>
      have hi : i < w.length := by
        have := h 0 (by simp)
        omega
      have hcw : w[i]? = some w[i] := List.getElem?_eq_getElem hi
      obtain ⟨b, hb⟩ := ih (i + 1) hshift
      by_cases he : w[i] = c'
      · exact ⟨b, by simp [known_any, hcw, he, hb]⟩
      · exact ⟨true, by simp [known_any, hcw, he]⟩

/-- If the inner misplaced loop returned false, every character of the field
occurs in the candidate but differs from the candidate's character at the
field's index. -/
lemma wrong_pos_inner_false_sound (w : List Char) (idx : Nat) :
    ∀ chs, wrong_pos_inner w idx chs = Except.ok false →
      ∀ ch ∈ chs, (∃ cw, w.get? idx = some cw ∧ cw ≠ ch) ∧ ch ∈ w := by
  intro chs
  induction chs with
  | nil => intro _ ch hch; cases hch
  | cons ch' rest ih =>
    intro h ch hch
    simp only [wrong_pos_inner] at h
    split at h
    next cw heq =>
      by_cases hcond : cw = ch' ∨ ch' ∉ w
      · rw [if_pos hcond] at h; cases h
      · rw [if_neg hcond] at h
        push_neg at hcond
        rcases List.mem_cons.mp hch with hch' | hch'
        · subst hch'
          exact ⟨⟨cw, heq, hcond.1⟩, hcond.2⟩
        · exact ih h ch hch'
    next heq => cases h

/-- Completeness of the inner misplaced loop: if every character of the field
is present in the candidate and differs from the candidate's character at the
index (which in particular exists), the loop returns false. -/
lemma wrong_pos_inner_eq_false (w : List Char) (idx : Nat) :
    ∀ chs, (∀ ch ∈ chs, (∃ cw, w.get? idx = some cw ∧ cw ≠ ch) ∧ ch ∈ w) →
      wrong_pos_inner w idx chs = Except.ok false := by
  intro chs
  induction chs with
  | nil => intro _; rfl
  | cons ch' rest ih =>
    intro h
    obtain ⟨⟨cw, hcw, hne⟩, hmem⟩ := h ch' (List.mem_cons_self ch' rest)
    rw [List.get?_eq_getElem?] at hcw
    have hrest := ih (fun ch hch => h ch (List.mem_cons_of_mem ch' hch))
    simp [wrong_pos_inner, hcw, hne, hmem, hrest]

/-- The inner misplaced loop cannot panic when its index is within the
candidate. -/
lemma wrong_pos_inner_ne_error (w : List Char) (idx : Nat) (hlt : idx < w.length) :
    ∀ chs, ∃ b, wrong_pos_inner w idx chs = Except.ok b := by
  intro chs
  induction chs with
  | nil => exact ⟨false, rfl⟩
  | cons ch' rest ih =>
    have hcw : w[idx]? = some w[idx] := List.getElem?_eq_getElem hlt
    obtain ⟨b, hb⟩ := ih
    by_cases hcond : w[idx] = ch' ∨ ch' ∉ w
    · exact ⟨true, by simp only [wrong_pos_inner, List.get?_eq_getElem?, hcw]; rw [if_pos hcond]⟩
    · exact ⟨b, by simp only [wrong_pos_inner, List.get?_eq_getElem?, hcw]; rw [if_neg hcond]; exact hb⟩

/-- If the outer misplaced pass returned false, every field it visited
satisfies the per-field condition of `wrong_pos_inner_false_sound`. -/
lemma wrong_pos_any_false_sound (w : List Char) :
    ∀ (ps : List (List Char)) (i : Nat), wrong_pos_any w i ps = Except.ok false →
      ∀ k chs, ps.get? k = some chs →
        ∀ ch ∈ chs, (∃ cw, w.get? (i + k) = some cw ∧ cw ≠ ch) ∧ ch ∈ w := by
  intro ps
  induction ps with
  | nil => intro i _ k chs hk; simp at hk
  | cons chs0 rest ih =>
    intro i h k chs hk
    simp only [wrong_pos_any] at h
    cases hin : wrong_pos_inner w i chs0 with
    | error e => rw [hin] at h; cases h
    | ok b =>
      rw [hin] at h
      cases b with
      | true => cases h
      | false =>
        cases k with
        | zero =>
          have hchs : chs0 = chs := by simpa using hk
          subst hchs
          intro ch hch
          have := wrong_pos_inner_false_sound w i chs0 hin ch hch
          simpa using this
        | succ k' =>
          have hk' : rest.get? k' = some chs := by simpa using hk
          have := ih (i + 1) h k' chs hk'
          have harith : i + (k' + 1) = i + 1 + k' := by omega
          rw [harith]
          exact this

/-- Completeness of the outer misplaced pass. -/
lemma wrong_pos_any_eq_false (w : List Char) :
    ∀ (ps : List (List Char)) (i : Nat),
      (∀ k chs, ps.get? k = some chs →
        ∀ ch ∈ chs, (∃ cw, w.get? (i + k) = some cw ∧ cw ≠ ch) ∧ ch ∈ w) →
      wrong_pos_any w i ps = Except.ok false := by
  intro ps
  induction ps with
  | nil => intro i _; rfl
  | cons chs0 rest ih =>
    intro i h
    have h0 : wrong_pos_inner w i chs0 = Except.ok false :=
      wrong_pos_inner_eq_false w i chs0
        (fun ch hch => by simpa using h 0 chs0 (by simp) ch hch)
    have hshift : ∀ k chs, rest.get? k = some chs →
        ∀ ch ∈ chs, (∃ cw, w.get? (i + 1 + k) = some cw ∧ cw ≠ ch) ∧ ch ∈ w := by
      intro k chs hk ch hch
      have := h (k + 1) chs (by simpa using hk) ch hch
      have harith : i + (k + 1) = i + 1 + k := by omega
      rw [harith] at this
      exact this
    simp [wrong_pos_any, h0, ih (i + 1) hshift]

/-- The outer misplaced pass cannot panic when every index it may visit is
within the candidate. -/
lemma wrong_pos_any_ne_error (w : List Char) :
    ∀ (ps : List (List Char)) (i : Nat),
      (∀ k, k < ps.length → i + k < w.length) →
      ∃ b, wrong_pos_any w i ps = Except.ok b := by
  intro ps
  induction ps with
  | nil => intro i _; exact ⟨false, rfl⟩
  | cons chs0 rest ih =>
    intro i h
    have hi : i < w.length := by
      have := h 0 (by simp)
      omega
    have hshift : ∀ k, k < rest.length → i + 1 + k < w.length := by
      intro k hk
      have := h (k + 1) (by simpa using Nat.succ_lt_succ hk)
      omega
    obtain ⟨b0, hb0⟩ := wrong_pos_inner_ne_error w i hi chs0
    obtain ⟨b, hb⟩ := ih (i + 1) hshift
    cases b0 with
    | true => exact ⟨true, by simp [wrong_pos_any, hb0]⟩
    | false => exact ⟨b, by simp [wrong_pos_any, hb0, hb]⟩

/-! ### The matching predicate: filter-level results -/

/-- A successful match forces all three checks of Word.filter to have
returned false. -/
lemma filter_matches_sound (cs : Word) (w : List Char) (hm : cs.matches w) :
    known_any w 0 cs.chars = Except.ok false ∧
    cs.wrong.any (fun ch => decide (ch ∈ w)) = false ∧
    wrong_pos_any w 0 cs.wrong_pos = Except.ok false := by
  unfold Word.matches Word.filter at hm
  split at hm
  next => cases hm
  next => cases hm
  next hka =>
    refine ⟨hka, ?_⟩
    by_cases hwr : cs.wrong.any (fun ch => decide (ch ∈ w)) = true
    · rw [if_pos hwr] at hm; cases hm
    · rw [if_neg hwr] at hm
      refine ⟨Bool.eq_false_iff.mpr hwr ▸ rfl, ?_⟩
      split at hm
      next => cases hm
      next => cases hm
      next hwp => exact hwp

/-- C4: soundness of the predicate — when a 5-character word matches a
constraint set, every set known-position field equals the word's character at
that index, no excluded character occurs in the word, and every misplaced
character occurs in the word but not at its flagged index. -/
theorem matches_sound (cs : Word) (w : List Char)
    (hw : w.length = 5) (hc : cs.chars.length = 5) (hp : cs.wrong_pos.length = 5)
    (hm : cs.matches w) :
    (∀ i c t, cs.chars.get? i = some (c :: t) → w.get? i = some c) ∧
    (∀ ch ∈ cs.wrong, ch ∉ w) ∧
    (∀ i chs, cs.wrong_pos.get? i = some chs →
      ∀ ch ∈ chs, w.get? i ≠ some ch ∧ ch ∈ w) := by
  obtain ⟨h1, h2, h3⟩ := filter_matches_sound cs w hm
  refine ⟨?_, ?_, ?_⟩
  · intro i c t hi
    have := known_any_false_sound w cs.chars 0 h1 i c t hi
    simpa using this
  · intro ch hch
    have := List.any_eq_false.mp h2 ch hch
    simpa using this
  · intro i chs hi ch hch
    obtain ⟨⟨cw, hcw, hne⟩, hmem⟩ :=
      wrong_pos_any_false_sound w cs.wrong_pos 0 h3 i chs hi ch hch
    rw [Nat.zero_add] at hcw
    refine ⟨?_, hmem⟩
    rw [hcw]
    intro he
    exact hne (Option.some.inj he)

/-- C4 (witness): the spec's worked scenario — known letters a, n at the first
two slots, excluded letter p, misplaced letter e at slot 0 — matches the word
angle, and the three soundness conclusions hold for it. -/
theorem matches_sound_witness :
    (['a', 'n', 'g', 'l', 'e'] : List Char).length = 5 ∧
    (Word.mk [['a'], ['n'], [], [], []] ['p'] [['e'], [], [], [], []]).chars.length = 5 ∧
    (Word.mk [['a'], ['n'], [], [], []] ['p'] [['e'], [], [], [], []]).wrong_pos.length = 5 ∧
    (Word.mk [['a'], ['n'], [], [], []] ['p'] [['e'], [], [], [], []]).matches
      ['a', 'n', 'g', 'l', 'e'] ∧
    ((∀ i c t,
        (Word.mk [['a'], ['n'], [], [], []] ['p'] [['e'], [], [], [], []]).chars.get? i =
          some (c :: t) → (['a', 'n', 'g', 'l', 'e'] : List Char).get? i = some c) ∧
      (∀ ch ∈ (Word.mk [['a'], ['n'], [], [], []] ['p'] [['e'], [], [], [], []]).wrong,
        ch ∉ (['a', 'n', 'g', 'l', 'e'] : List Char)) ∧
      (∀ i chs,
        (Word.mk [['a'], ['n'], [], [], []] ['p'] [['e'], [], [], [], []]).wrong_pos.get? i =
          some chs → ∀ ch ∈ chs,
            (['a', 'n', 'g', 'l', 'e'] : List Char).get? i ≠ some ch ∧
            ch ∈ (['a', 'n', 'g', 'l', 'e'] : List Char))) :=
  ⟨by decide, by decide, by decide, by decide,
    matches_sound _ _ (by decide) (by decide) (by decide) (by decide)⟩

/-- C10: Word.filter performs no length validation — any word whose characters
at the constrained indices satisfy the constraints is accepted, regardless of
the word's length (in particular words longer than 5 characters), and with an
all-empty constraint set the three hypotheses are vacuous, so words of any
length pass. -/
theorem filter_accepts_without_length_check (cs : Word) (w : List Char)
    (h1 : ∀ i, i < cs.chars.length → cs.chars.getD i [] ≠ [] →
      w.get? i = (cs.chars.getD i []).head?)
    (h2 : ∀ ch ∈ cs.wrong, ch ∉ w)
    (h3 : ∀ i, i < cs.wrong_pos.length → ∀ ch ∈ cs.wrong_pos.getD i [],
      (w.get? i ≠ none ∧ w.get? i ≠ some ch) ∧ ch ∈ w) :
    cs.filter w = Except.ok (some w) := by
  have hk : known_any w 0 cs.chars = Except.ok false := by
    apply known_any_eq_false
    intro k c t hk
    have hlt : k < cs.chars.length := by
      rcases List.get?_eq_some.mp hk with ⟨hlt, _⟩
      exact hlt
    have hgd : cs.chars.getD k [] = c :: t := by
      rw [List.getD_eq_getElem?_getD, ← List.get?_eq_getElem?, hk]
      rfl
    have := h1 k hlt (by rw [hgd]; exact List.cons_ne_nil c t)
    rw [hgd] at this
    simpa using this
  have hwr : cs.wrong.any (fun ch => decide (ch ∈ w)) = false := by
    apply List.any_eq_false.mpr
    intro ch hch
    simpa using h2 ch hch
  have hwp : wrong_pos_any w 0 cs.wrong_pos = Except.ok false := by
    apply wrong_pos_any_eq_false
    intro k chs hk ch hch
    have hlt : k < cs.wrong_pos.length := by
      rcases List.get?_eq_some.mp hk with ⟨hlt, _⟩
      exact hlt
    have hgd : cs.wrong_pos.getD k [] = chs := by
      rw [List.getD_eq_getElem?_getD, ← List.get?_eq_getElem?, hk]
      rfl
    obtain ⟨⟨hnn, hns⟩, hmem⟩ := h3 k hlt ch (hgd ▸ hch)
    refine ⟨?_, hmem⟩
    cases hg : w.get? k with
    | none => exact absurd hg hnn
    | some cw =>
      refine ⟨cw, by simpa using hg, ?_⟩
      intro he
      subst he
      exact hns hg
  simp [Word.filter, hk, hwr, hwp]

/-- C10 (witness): a 7-character word whose first five characters satisfy a
non-trivial constraint set is accepted by the filter. -/
theorem filter_accepts_without_length_check_witness :
    (∀ i, i < (Word.mk [['a'], [], [], [], []] ['z'] [[], ['a'], [], [], []]).chars.length →
      (Word.mk [['a'], [], [], [], []] ['z'] [[], ['a'], [], [], []]).chars.getD i [] ≠ [] →
      (['a', 'b', 'c', 'd', 'e', 'f', 'g'] : List Char).get? i =
        ((Word.mk [['a'], [], [], [], []] ['z'] [[], ['a'], [], [], []]).chars.getD i []).head?) ∧
    (∀ ch ∈ (Word.mk [['a'], [], [], [], []] ['z'] [[], ['a'], [], [], []]).wrong,
      ch ∉ (['a', 'b', 'c', 'd', 'e', 'f', 'g'] : List Char)) ∧
    (∀ i, i < (Word.mk [['a'], [], [], [], []] ['z'] [[], ['a'], [], [], []]).wrong_pos.length →
      ∀ ch ∈ (Word.mk [['a'], [], [], [], []] ['z'] [[], ['a'], [], [], []]).wrong_pos.getD i [],
        ((['a', 'b', 'c', 'd', 'e', 'f', 'g'] : List Char).get? i ≠ none ∧
          (['a', 'b', 'c', 'd', 'e', 'f', 'g'] : List Char).get? i ≠ some ch) ∧
        ch ∈ (['a', 'b', 'c', 'd', 'e', 'f', 'g'] : List Char)) ∧
    (Word.mk [['a'], [], [], [], []] ['z'] [[], ['a'], [], [], []]).filter
      ['a', 'b', 'c', 'd', 'e', 'f', 'g'] =
      Except.ok (some ['a', 'b', 'c', 'd', 'e', 'f', 'g']) :=
  ⟨by decide, by decide, by decide,
    filter_accepts_without_length_check _ _ (by decide) (by decide) (by decide)⟩

/-- With an all-empty constraint set no check ever indexes the candidate: the
known pass skips every field, the excluded check is over an empty string, and
the misplaced pass has only empty fields, so every word is returned. -/
lemma filter_all_empty (cs : Word) (hch : ∀ ch ∈ cs.chars, ch = [])
    (hw : cs.wrong = []) (hwp : ∀ s ∈ cs.wrong_pos, s = []) (w : List Char) :
    cs.filter w = Except.ok (some w) := by
  have hk : known_any w 0 cs.chars = Except.ok false := by
    apply known_any_eq_false
    intro k c t hk
    have : (c :: t) ∈ cs.chars := List.get?_mem hk
    exact absurd (hch _ this) (List.cons_ne_nil c t)
  have hwr : cs.wrong.any (fun ch => decide (ch ∈ w)) = false := by
    rw [hw]; rfl
  have hwpa : wrong_pos_any w 0 cs.wrong_pos = Except.ok false := by
    apply wrong_pos_any_eq_false
    intro k chs hk ch hchm
    have : chs ∈ cs.wrong_pos := List.get?_mem hk
    rw [hwp _ this] at hchm
    cases hchm
  simp [Word.filter, hk, hwr, hwpa]

/-- Helper for C6 and C3: with an all-empty constraint set the word-list pass
returns the word list unchanged. -/
lemma filterList_all_empty (cs : Word) (hch : ∀ ch ∈ cs.chars, ch = [])
    (hw : cs.wrong = []) (hwp : ∀ s ∈ cs.wrong_pos, s = []) :
    ∀ ws, filterList cs ws = Except.ok ws := by
  intro ws
  induction ws with
  | nil => rfl
  | cons w rest ih =>
    simp [filterList, filter_all_empty cs hch hw hwp w, ih]

/-- C6: filtering with a constraint set whose fields are all empty returns the
word list unchanged, in the same order. -/
theorem filterList_empty_constraints (cs : Word) (ws : List (List Char))
    (hch : ∀ ch ∈ cs.chars, ch = []) (hw : cs.wrong = [])
    (hwp : ∀ s ∈ cs.wrong_pos, s = []) :
    filterList cs ws = Except.ok ws :=
  filterList_all_empty cs hch hw hwp ws

/-- C6 (witness): the derived-default constraint set is all-empty and leaves a
sample list — including a word that is not 5 characters long — unchanged. -/
theorem filterList_empty_constraints_witness :
    (∀ ch ∈ Word.default.chars, ch = []) ∧ Word.default.wrong = [] ∧
    (∀ s ∈ Word.default.wrong_pos, s = []) ∧
    filterList Word.default [['h', 'i'], ['a', 'n', 'g', 'l', 'e']] =
      Except.ok [['h', 'i'], ['a', 'n', 'g', 'l', 'e']] :=
  ⟨by decide, by decide, by decide,
    filterList_empty_constraints _ _ (by decide) (by decide) (by decide)⟩

/-- When the candidate is at least as long as both constraint arrays, no index
is out of bounds and Word.filter returns a verdict (never a panic). -/
lemma filter_ok_of_lengths (cs : Word) (w : List Char)
    (hc : cs.chars.length ≤ w.length) (hp : cs.wrong_pos.length ≤ w.length) :
    cs.filter w = Except.ok (some w) ∨ cs.filter w = Except.ok none := by
  obtain ⟨b1, hb1⟩ := known_any_ne_error w cs.chars 0 (fun k hk => by omega)
  cases b1 with
  | true => right; simp [Word.filter, hb1]
  | false =>
    by_cases hwr : cs.wrong.any (fun ch => decide (ch ∈ w)) = true
    · right; simp [Word.filter, hb1, hwr]
    · obtain ⟨b3, hb3⟩ := wrong_pos_any_ne_error w cs.wrong_pos 0 (fun k hk => by omega)
      cases b3 with
      | true => right; simp [Word.filter, hb1, hwr, hb3]
      | false => left; simp [Word.filter, hb1, hwr, hb3]

/-- C5 (amended): on word lists whose entries all have the expected length 5
(with the source's arity-5 constraint arrays), filterList returns exactly the
ordered subsequence of words satisfying `Word.matches` — the empty list when
no word matches — and never a panic.  The length restriction is forced by the
counterexample `filterList_errors_on_short_word`. -/
theorem filterList_eq_filter_matches (cs : Word) (ws : List (List Char))
    (hc : cs.chars.length = 5) (hp : cs.wrong_pos.length = 5)
    (hw : ∀ w ∈ ws, w.length = 5) :
    filterList cs ws = Except.ok (ws.filter fun w => decide (cs.matches w)) := by
  induction ws with
  | nil => rfl
  | cons w rest ih =>
    have hw5 : w.length = 5 := hw w (List.mem_cons_self w rest)
    have hrest := ih (fun x hx => hw x (List.mem_cons_of_mem w hx))
    rcases filter_ok_of_lengths cs w (by omega) (by omega) with hf | hf
    · have hmt : cs.matches w := hf
      simp [filterList, hf, hrest, List.filter_cons, hmt]
    · have hmf : ¬ cs.matches w := by
        rw [Word.matches, hf]
        intro he
        cases Except.ok.inj he
      simp [filterList, hf, hrest, List.filter_cons, hmf]

/-- C5 (counterexample): with a known letter at the fifth slot, a 2-character
word makes the pass panic instead of returning the empty subsequence. -/
theorem filterList_errors_on_short_word :
    filterList (Word.mk [[], [], [], [], ['e']] [] [[], [], [], [], []]) [['h', 'i']] =
      Except.error () ∧
    filterList (Word.mk [[], [], [], [], ['e']] [] [[], [], [], [], []]) [['h', 'i']] ≠
      Except.ok [] := by
  decide

/-- C5 (witness): the spec's worked scenario — known letters a, n and excluded
letter p over the list apple, angle, ankle, amble — where the pass returns
exactly the matching subsequence angle, ankle. -/
theorem filterList_eq_filter_matches_witness :
    (Word.mk [['a'], ['n'], [], [], []] ['p'] [[], [], [], [], []]).chars.length = 5 ∧
    (Word.mk [['a'], ['n'], [], [], []] ['p'] [[], [], [], [], []]).wrong_pos.length = 5 ∧
    (∀ w ∈ [['a', 'p', 'p', 'l', 'e'], ['a', 'n', 'g', 'l', 'e'],
        ['a', 'n', 'k', 'l', 'e'], ['a', 'm', 'b', 'l', 'e']], List.length w = 5) ∧
    filterList (Word.mk [['a'], ['n'], [], [], []] ['p'] [[], [], [], [], []])
      [['a', 'p', 'p', 'l', 'e'], ['a', 'n', 'g', 'l', 'e'],
        ['a', 'n', 'k', 'l', 'e'], ['a', 'm', 'b', 'l', 'e']] =
      Except.ok
        ([['a', 'p', 'p', 'l', 'e'], ['a', 'n', 'g', 'l', 'e'],
          ['a', 'n', 'k', 'l', 'e'], ['a', 'm', 'b', 'l', 'e']].filter
          fun w => decide ((Word.mk [['a'], ['n'], [], [], []] ['p']
            [[], [], [], [], []]).matches w)) :=
  ⟨by decide, by decide, by decide,
    filterList_eq_filter_matches _ _ (by decide) (by decide) (by decide)⟩

/-- C1: the code, evaluated at the failing input — a constraint set with a
known letter at the fifth slot and a word list containing the 3-character word
abc followed by the matching 5-character word abcde.  The claim (and the
spec's error-handling policy) requires the short word to be skipped and abcde
returned; the code instead reaches the out-of-bounds index `w_chars[4]` and
panics, aborting the whole pass. -/
theorem filterList_panics_on_short_word :
    filterList (Word.mk [[], [], [], [], ['e']] [] [[], [], [], [], []])
      [['a', 'b', 'c'], ['a', 'b', 'c', 'd', 'e']] = Except.error () ∧
    (Word.mk [[], [], [], [], ['e']] [] [[], [], [], [], []]).matches
      ['a', 'b', 'c', 'd', 'e'] := by
  decide

/-! ### char_field's consistency cleanup -/

/-- remove_matches with a single-character pattern removes every occurrence of
that character. -/
lemma remove_matches_single_not_mem (c : Char) : ∀ s, c ∉ remove_matches s [c] := by
  intro s
  induction s with
  | nil => simp [remove_matches]
  | cons a rest ih =>
    by_cases hac : a = c
    · subst hac
      simpa [remove_matches, List.take, List.drop] using ih
    · simp only [remove_matches, List.length_cons, List.length_nil, List.take,
        List.drop]
      rw [if_neg (by simpa using hac)]
      intro hm
      rcases List.mem_cons.mp hm with hm | hm
      · exact hac hm.symm
      · exact ih hm

/-- Reading back the slot just written by `List.set` within bounds yields the
written value. -/
lemma getD_set_self (l : List (List Char)) (i : Nat) (a : List Char)
    (h : i < l.length) :
    (l.set i a).getD i [] = a := by
  rw [List.getD_eq_getElem?_getD, List.getElem?_set_eq_of_lt a h]
  rfl

/-- C7: when the known-position field `idx` is set to the single character c,
char_field first strips c from every misplaced-letter field and only then runs
the filter pass, so the filter sees a state in which no misplaced slot still
holds c. -/
theorem char_field_clears_new_char_from_wrong_pos (word : Word)
    (words : List (List Char)) (idx : Nat) (c : Char)
    (h : idx < word.chars.length) :
    (∀ s ∈ (char_field word words idx [c]).1.wrong_pos, c ∉ s) ∧
    (char_field word words idx [c]).2 =
      filterList (char_field word words idx [c]).1 words := by
  constructor
  · intro s hs
    simp only [char_field, char_field_update] at hs
    rw [getD_set_self _ _ _ h] at hs
    obtain ⟨t, _, rfl⟩ := List.mem_map.mp hs
    exact remove_matches_single_not_mem c t
  · rfl

/-- C7 (witness): setting slot 0 to c clears c from both misplaced fields that
held it, before the filter pass runs. -/
theorem char_field_clears_new_char_from_wrong_pos_witness :
    0 < (Word.mk [[], [], [], [], []] [] [['x', 'c'], ['c'], [], [], []]).chars.length ∧
    ((∀ s ∈ (char_field (Word.mk [[], [], [], [], []] []
        [['x', 'c'], ['c'], [], [], []]) [['c', 'a', 'b', 'l', 'e']] 0 ['c']).1.wrong_pos,
      'c' ∉ s) ∧
    (char_field (Word.mk [[], [], [], [], []] [] [['x', 'c'], ['c'], [], [], []])
        [['c', 'a', 'b', 'l', 'e']] 0 ['c']).2 =
      filterList (char_field (Word.mk [[], [], [], [], []] []
        [['x', 'c'], ['c'], [], [], []]) [['c', 'a', 'b', 'l', 'e']] 0 ['c']).1
        [['c', 'a', 'b', 'l', 'e']]) :=
  ⟨by decide, char_field_clears_new_char_from_wrong_pos _ _ _ _ (by decide)⟩

/-! ### The event loop -/

/-- C3 (counterexample): after a word-list load the displayed list is the raw
new list, while filter followed by rank of the current state would sort it —
the reload branch performs neither the filter nor the sort. -/
theorem load_does_not_refilter :
    step ⟨Word.default, [], []⟩
        (Event.load [['a', 'a', 'b', 'b', 'c'], ['a', 'b', 'c', 'd', 'e']]) =
      Except.ok ⟨Word.default, [['a', 'a', 'b', 'b', 'c'], ['a', 'b', 'c', 'd', 'e']],
        [['a', 'a', 'b', 'b', 'c'], ['a', 'b', 'c', 'd', 'e']]⟩ ∧
    filterList Word.default [['a', 'a', 'b', 'b', 'c'], ['a', 'b', 'c', 'd', 'e']] =
      Except.ok [['a', 'a', 'b', 'b', 'c'], ['a', 'b', 'c', 'd', 'e']] ∧
    sort_possible_by_entropy [['a', 'a', 'b', 'b', 'c'], ['a', 'b', 'c', 'd', 'e']] ≠
      [['a', 'a', 'b', 'b', 'c'], ['a', 'b', 'c', 'd', 'e']] := by
  decide

/-- C3 (amended): after every constraint-field change and after Reset the
displayed list equals rank of filter of the current word list under the
current constraints; a word-list reload is excluded — it installs the raw new
list unfiltered and unranked. -/
theorem step_recomputes_on_non_load_events (s s' : AppState) (e : Event)
    (f : List (List Char)) (hne : e.isLoad = false)
    (hs : step s e = Except.ok s')
    (hf : filterList s'.word s'.words = Except.ok f) :
    s'.possible = sort_possible_by_entropy f := by
  cases e with
  | setChar idx val =>
    simp only [step, char_field] at hs
    split at hs
    next heq => cases hs
    next w' filtered heq =>
      cases hs
      obtain ⟨rfl⟩ : char_field_update s.word idx val = w' ∧ True :=
        ⟨(Prod.mk.injEq _ _ _ _).mp heq |>.1, trivial⟩
      have h2 := (Prod.mk.injEq _ _ _ _).mp heq |>.2
      rw [h2] at hf
      cases hf
      rfl
  | setWrongPos idx val =>
    simp only [step, wrong_pos_field] at hs
    split at hs
    next heq => cases hs
    next w' filtered heq =>
      cases hs
      have h2 := (Prod.mk.injEq _ _ _ _).mp heq |>.2
      have h1 := (Prod.mk.injEq _ _ _ _).mp heq |>.1
      rw [h1] at h2
      rw [h2] at hf
      cases hf
      rfl
  | setWrong val =>
    simp only [step, wrong_field] at hs
    split at hs
    next heq => cases hs
    next w' filtered heq =>
      cases hs
      have h2 := (Prod.mk.injEq _ _ _ _).mp heq |>.2
      have h1 := (Prod.mk.injEq _ _ _ _).mp heq |>.1
      rw [h1] at h2
      rw [h2] at hf
      cases hf
      rfl
  | reset =>
    simp only [step] at hs
    cases hs
    have hdef : filterList Word.default s.words = Except.ok s.words :=
      filterList_all_empty Word.default
        (fun ch hch => List.eq_of_mem_replicate hch) rfl
        (fun t ht => List.eq_of_mem_replicate ht) s.words
    simp only at hf
    rw [hdef] at hf
    cases hf
    rfl
  | load nw => simp [Event.isLoad] at hne

/-- C3 (witness): a concrete excluded-letters change on a two-word list, after
which the displayed list is the ranked filtered list. -/
theorem step_recomputes_on_non_load_events_witness :
    (Event.setWrong ['z']).isLoad = false ∧
    step ⟨Word.default, [['a', 'a', 'b', 'b', 'c'], ['a', 'b', 'c', 'd', 'e']], []⟩
        (Event.setWrong ['z']) =
      Except.ok ⟨Word.mk (List.replicate 5 []) ['z'] (List.replicate 5 []),
        [['a', 'a', 'b', 'b', 'c'], ['a', 'b', 'c', 'd', 'e']],
        [['a', 'b', 'c', 'd', 'e'], ['a', 'a', 'b', 'b', 'c']]⟩ ∧
    filterList (Word.mk (List.replicate 5 []) ['z'] (List.replicate 5 []))
        [['a', 'a', 'b', 'b', 'c'], ['a', 'b', 'c', 'd', 'e']] =
      Except.ok [['a', 'a', 'b', 'b', 'c'], ['a', 'b', 'c', 'd', 'e']] ∧
    (⟨Word.mk (List.replicate 5 []) ['z'] (List.replicate 5 []),
        [['a', 'a', 'b', 'b', 'c'], ['a', 'b', 'c', 'd', 'e']],
        [['a', 'b', 'c', 'd', 'e'], ['a', 'a', 'b', 'b', 'c']]⟩ : AppState).possible =
      sort_possible_by_entropy [['a', 'a', 'b', 'b', 'c'], ['a', 'b', 'c', 'd', 'e']] :=
  ⟨by decide, by decide, by decide,
    step_recomputes_on_non_load_events
      ⟨Word.default, [['a', 'a', 'b', 'b', 'c'], ['a', 'b', 'c', 'd', 'e']], []⟩
      ⟨Word.mk (List.replicate 5 []) ['z'] (List.replicate 5 []),
        [['a', 'a', 'b', 'b', 'c'], ['a', 'b', 'c', 'd', 'e']],
        [['a', 'b', 'c', 'd', 'e'], ['a', 'a', 'b', 'b', 'c']]⟩
      (Event.setWrong ['z'])
      [['a', 'a', 'b', 'b', 'c'], ['a', 'b', 'c', 'd', 'e']]
      (by decide) (by decide) (by decide)⟩
